import Mathlib

/-!
Verification of the core codecs of the `compress` library:
run-length coding (src/rle.rs), move-to-front coding (src/bwt/mtf.rs),
CRC-32 (src/checksum/crc.rs) and the gzip header parser (src/gzip.rs).
Byte values are modelled as `Nat` (a byte is a value `< 256`); the `u64`
repetition counter of the RLE encoder wraps modulo `2 ^ 64` exactly where
the source increments it.  Rust panics (out-of-bounds array writes, failed
assertions) are modelled as `Option.none`; `io::Result` errors as `Except`.
-/

set_option maxHeartbeats 1000000

/-! ### RLE encoder (src/rle.rs, `Encoder`) -/

/-- The mutable fields of `rle::Encoder` (src/rle.rs lines 41-46), minus the
wrapped writer: `reps: u64`, `byte: u8`, `in_run: bool`. -/
structure EncState where
  reps : Nat
  byte : Nat
  inRun : Bool
  deriving Repr, DecidableEq

/-- `Encoder::new` (src/rle.rs lines 51-58): `reps = 0`, `byte = 0`,
`in_run = false`. -/
def EncState.new : EncState := { reps := 0, byte := 0, inRun := false }

/-- The write loop inside `Encoder::flush` (src/rle.rs lines 116-126):
starting at `index`, store the low 7 bits of `re` into `buf[index]`, shift
`re` right by 7; when the shifted value reaches zero, set the top bit of the
byte just written and stop, otherwise advance `index`.  The Rust code indexes
a fixed `[u8; 11]` with no bounds check of its own, so `buf[index]` with
`index ≥ buf.length` is an out-of-bounds panic, modelled as `none`.  Returns
the final buffer together with the final `index`. -/
def flushLoop (re : Nat) (buf : List Nat) (index : Nat) : Option (List Nat × Nat) :=
  if index < buf.length then
    let buf1 := buf.set index (re % 128)
    if _h : re / 128 = 0 then
      some (buf1.set index ((re % 128) ||| 128), index)
    else
      flushLoop (re / 128) buf1 (index + 1)
  else none
termination_by re
decreasing_by
  exact Nat.div_lt_self (Nat.pos_of_ne_zero (fun h0 => _h (by simp [h0]))) (by norm_num)

/-- `Encoder::flush` (src/rle.rs lines 105-132).  With `reps == 1` the single
literal byte is written; with `reps > 1` the byte is written twice followed by
the bytes produced by the write loop on `reps - 2` (the buffer starts as
`[0; 11]` with `buf[0] = buf[1] = byte`, the loop starts at index 2, and
`buf[..index+1]` is written); with `reps == 0` nothing is written.  The
method never assigns `self.reps`, `self.byte` or `self.in_run`, so the
returned state is the input state. -/
def rleFlush (s : EncState) : Option (EncState × List Nat) :=
  if s.reps = 1 then some (s, [s.byte])
  else if s.reps > 1 then
    (flushLoop (s.reps - 2) (s.byte :: s.byte :: List.replicate 9 0) 2).map
      fun p => (s, p.1.take (p.2 + 1))
  else some (s, [])

/-- `Encoder::process_byte` (src/rle.rs lines 69-90).  Returns the new state
and the bytes written to the wrapped writer.  The increment of the `u64`
field `reps` wraps modulo `2 ^ 64`. -/
def processByte (s : EncState) (b : Nat) : Option (EncState × List Nat) :=
  if !s.inRun then
    some ({ s with byte := b, reps := 1, inRun := true }, [])
  else if s.byte = b then
    some ({ s with reps := (s.reps + 1) % 2 ^ 64 }, [])
  else
    (rleFlush s).map fun p => ({ p.1 with reps := 1, byte := b }, p.2)

/-- `Write::write` for `Encoder` (src/rle.rs lines 94-103): process each
input byte in order, concatenating everything written to the wrapped
writer. -/
def rleWrite (s : EncState) : List Nat → Option (EncState × List Nat)
  | [] => some (s, [])
  | b :: t => do
    let p1 ← processByte s b
    let p2 ← rleWrite p1.1 t
    pure (p2.1, p1.2 ++ p2.2)

/-- `write_all` on a fresh `Encoder` followed by `Encoder::finish`
(src/rle.rs lines 63-67), which flushes the pending run: the complete byte
stream produced by encoding `input`. -/
def rleEncode (input : List Nat) : Option (List Nat) := do
  let p ← rleWrite EncState.new input
  let q ← rleFlush p.1
  pure (p.2 ++ q.2)

/-- Writing further input to an encoder in state `s` and then finishing:
the remaining byte stream the encoder will produce. -/
def rleFinishFrom (s : EncState) (t : List Nat) : Option (List Nat) := do
  let p ← rleWrite s t
  let q ← rleFlush p.1
  pure (p.2 ++ q.2)

/-! ### RLE decoder (src/rle.rs, `RunBuilder`, `DecoderState`, `Decoder`) -/

/-- `RunBuilder` (src/rle.rs lines 135-139): `byte: u8`, `slice: [u8; 9]`,
`byte_count: u8`. -/
structure RunBuilder where
  byte : Nat
  slice : List Nat
  byteCount : Nat
  deriving Repr, DecidableEq

/-- `RunBuilder::new` (src/rle.rs lines 142-148). -/
def RunBuilder.new (byte : Nat) : RunBuilder :=
  { byte := byte, slice := List.replicate 9 0, byteCount := 0 }

/-- The repetition count computed by `RunBuilder::to_run` (src/rle.rs lines
150-159): `2 +` the fold over the enumerated slice of
`reps | ((byte & 0x7f) << (i * 7))`. -/
def RunBuilder.toReps (rb : RunBuilder) : Nat :=
  2 + (List.enumFrom 0 rb.slice).foldl
    (fun reps p => reps ||| ((p.2 % 128) <<< (p.1 * 7))) 0

/-- `RunBuilder::add_byte` (src/rle.rs lines 161-169): with 9 continuation
bytes already stored the stream is rejected as an overly long run, otherwise
the byte is stored at position `byte_count`. -/
def RunBuilder.addByte (rb : RunBuilder) (b : Nat) : Except String RunBuilder :=
  if rb.byteCount ≥ 9 then .error "Overly long run"
  else .ok { rb with slice := rb.slice.set rb.byteCount b, byteCount := rb.byteCount + 1 }

/-- `DecoderState` (src/rle.rs lines 177-181). -/
inductive DecoderState where
  | clean
  | single (byte : Nat)
  | run (rb : RunBuilder)
  deriving Repr, DecidableEq

/-- `Decoder::is_final_run_byte` (src/rle.rs lines 272-274):
`0b1000_0000 & byte != 0`. -/
def isFinalRunByte (b : Nat) : Bool := 128 &&& b != 0

/-- The full `read_to_end` behaviour of `rle::Decoder` (src/rle.rs lines
206-317) from a given machine state: `read_run` drives the three-state
machine over the input; each produced `Run {byte, reps}` is drained by
`read_byte` as `reps` copies of `byte`; when the underlying reader is
exhausted the pending state is flushed into a final run (`Single(a)` becomes
`Run {a, 1}`, a pending `RunBuilder` is finalized by `to_run`).  An error
from `RunBuilder::add_byte` aborts the read. -/
def rleDecode (st : DecoderState) : List Nat → Except String (List Nat)
  | [] =>
    match st with
    | .clean => .ok []
    | .single a => .ok [a]
    | .run rb => .ok (List.replicate rb.toReps rb.byte)
  | b :: rest =>
    match st with
    | .clean => rleDecode (.single b) rest
    | .single a =>
      if b = a then rleDecode (.run (RunBuilder.new b)) rest
      else do
        let tail ← rleDecode (.single b) rest
        pure (a :: tail)
    | .run rb => do
      let rb1 ← rb.addByte b
      if isFinalRunByte b then do
        let tail ← rleDecode .clean rest
        pure (List.replicate rb1.toReps rb1.byte ++ tail)
      else
        rleDecode (.run rb1) rest

/-! ### Specification-side descriptions of the RLE wire format -/

/-- The little-endian base-128 varint with continuation bits described in the
spec: successive 7-bit groups, least significant first, the top bit clear on
every group except the last, which has it set. -/
def varint (n : Nat) : List Nat :=
  if _h : n < 128 then [n + 128]
  else (n % 128) :: varint (n / 128)
termination_by n
decreasing_by
  exact Nat.div_lt_self (by omega) (by norm_num)

/-- Number of bytes of `varint n`. -/
def varlen (n : Nat) : Nat := (varint n).length

/-- The wire encoding of one flushed run of `r` repetitions of `b`:
a single literal byte for `r = 1`, the byte twice followed by
`varint (r - 2)` for `r ≥ 2`, nothing for `r = 0`. -/
def flushBytes (b r : Nat) : List Nat :=
  if r = 1 then [b]
  else if r > 1 then b :: b :: varint (r - 2)
  else []

/-- The value denoted by a list of continuation bytes: the low 7 bits of
each byte, weighted `128 ^ position`, least significant first. -/
def valAux : List Nat → Nat
  | [] => 0
  | b :: t => b % 128 + 128 * valAux t

/-- Maximal-run decomposition of a byte sequence, carrying the current run
`(b, r)`. -/
def runsAux (b r : Nat) : List Nat → List (Nat × Nat)
  | [] => [(b, r)]
  | c :: t => if c = b then runsAux b (r + 1) t else (b, r) :: runsAux c 1 t

/-- Maximal-run decomposition of a byte sequence. -/
def runsOf : List Nat → List (Nat × Nat)
  | [] => []
  | b :: t => runsAux b 1 t

/-- Expansion of a run list back into the byte sequence it denotes. -/
def expandRuns (rs : List (Nat × Nat)) : List Nat :=
  rs.flatMap fun p => List.replicate p.2 p.1

/-- Concatenated wire encoding of a run list. -/
def encodeRuns (rs : List (Nat × Nat)) : List Nat :=
  rs.flatMap fun p => flushBytes p.1 p.2

/-- First run byte of a run list, if any. -/
def headByte (rs : List (Nat × Nat)) : Option Nat := rs.head?.map Prod.fst

/-- Well-formed run list: every count is between 1 and `2 ^ 63 + 1` (the
largest count the 9-continuation-byte format can carry), and consecutive
runs have distinct bytes. -/
def RunsWF : List (Nat × Nat) → Prop
  | [] => True
  | p :: rest => 1 ≤ p.2 ∧ p.2 ≤ 2 ^ 63 + 1 ∧ headByte rest ≠ some p.1 ∧ RunsWF rest

/-! ### MTF codec (src/bwt/mtf.rs) -/

/-- The scanning loop of `MTF::encode` (src/bwt/mtf.rs lines 68-76) over the
positions `rank = 1, 2, ...` of the table, carrying the value `next` that
`mem::swap` is about to store at the current position.  Each visited position
receives the previous `next` and hands its old occupant to the next step;
when the old occupant equals the searched symbol the loop stops and the
positions beyond it are untouched.  The rank returned here is relative to the
first scanned position.  An empty remainder means the symbol was not found:
the `assert!((rank as usize) < self.symbols.len())` fails, modelled as
`none`. -/
def mtfEncodeLoop (sym next : Nat) : List Nat → Option (Nat × List Nat)
  | [] => none
  | cur :: rest =>
    if cur = sym then some (0, next :: rest)
    else (mtfEncodeLoop sym cur rest).map fun p => (p.1 + 1, next :: p.2)

/-- `MTF::encode` (src/bwt/mtf.rs lines 63-79): rank 0 with the table
unchanged when the front symbol already matches; otherwise the scan above,
followed by `self.symbols[0] = sym`. -/
def mtfEncode (m : List Nat) (sym : Nat) : Option (Nat × List Nat) :=
  match m with
  | [] => none
  | next :: rest =>
    if next = sym then some (0, m)
    else (mtfEncodeLoop sym next rest).map fun p => (p.1 + 1, sym :: p.2)

/-- `MTF::decode` (src/bwt/mtf.rs lines 82-90): read the symbol at position
`rank`, shift positions `[0, rank)` one slot toward the tail, store the
symbol at position 0.  The resulting table is the symbol followed by the
table with position `rank` removed. -/
def mtfDecode (m : List Nat) (rank : Nat) : Nat × List Nat :=
  let sym := m.getD rank 0
  (sym, sym :: (m.take rank ++ m.drop (rank + 1)))

/-- The table set up by `MTF::reset_alphabetical` (src/bwt/mtf.rs lines
56-60): position `i` holds symbol `i`. -/
def mtfAlphabet : List Nat := List.range 256

/-- `Write::write` for `mtf::Encoder` (src/bwt/mtf.rs lines 117-124): encode
each input symbol in order, each rank written as one byte, threading the
table. -/
def mtfEncodeSeq (m : List Nat) : List Nat → Option (List Nat)
  | [] => some []
  | s :: t => do
    let p ← mtfEncode m s
    let rs ← mtfEncodeSeq p.2 t
    pure (p.1 :: rs)

/-- `read_to_end` of `mtf::Decoder` (src/bwt/mtf.rs lines 155-169): decode
each rank byte in order, threading the table. -/
def mtfDecodeSeq (m : List Nat) : List Nat → List Nat
  | [] => []
  | r :: t =>
    let p := mtfDecode m r
    p.1 :: mtfDecodeSeq p.2 t

/-! ### CRC-32 (src/checksum/crc.rs) -/

/-- One bit-reduction step of the table construction (src/checksum/crc.rs
lines 20-24): `if c & 1 != 0 { 0xedb88320 ^ (c >> 1) } else { c >> 1 }`. -/
def crcStep (c : Nat) : Nat :=
  if c &&& 1 ≠ 0 then 0xedb88320 ^^^ (c >>> 1) else c >>> 1

/-- One entry of the CRC table (`Table32::new`, src/checksum/crc.rs lines
15-29): eight bit-reduction steps applied to the entry index. -/
def crcEntry (n : Nat) : Nat := (List.range 8).foldl (fun c _ => crcStep c) n

/-- The 256-entry table built by `Table32::new`. -/
def crcTable : List Nat := (List.range 256).map crcEntry

/-- `State32` (src/checksum/crc.rs lines 33-36): the running 32-bit CRC
state. -/
structure State32 where
  crc : Nat
  deriving Repr, DecidableEq

/-- `State32::new` (src/checksum/crc.rs lines 40-45): seeded with
`0xffffffff`. -/
def State32.new : State32 := { crc := 0xffffffff }

/-- `State32::crc32` (src/checksum/crc.rs lines 48-50): the reported
checksum is the state XOR `0xffffffff`. -/
def State32.crc32 (s : State32) : Nat := s.crc ^^^ 0xffffffff

/-- `State32::feed` (src/checksum/crc.rs lines 58-64):
`c = table[(c ^ byte) & 0xff] ^ (c >> 8)` for each byte, left to right. -/
def State32.feed (s : State32) (buf : List Nat) : State32 :=
  { crc := buf.foldl (fun c b => crcTable.getD ((c ^^^ b) &&& 0xff) 0 ^^^ (c >>> 8)) s.crc }

/-! ### Gzip header parsing (src/gzip.rs, `Decoder::member`) -/

/-- Outcome of `Decoder::member`: `eof` models `Err(EndOfFile)` (the clean
end-of-stream signal, also produced when the name/comment loops propagate an
end of file through plain `try!`); `errInvalid` models an
`io::InvalidInput` error with the given description; `member` carries the
parsed file name and comment and the unread remainder of the stream. -/
inductive GzResult where
  | eof
  | errInvalid (desc : String)
  | member (fileName fileComment rest : List Nat)
  deriving Repr, DecidableEq

/-- The null-terminated read loop for the FNAME/FCOMMENT fields (src/gzip.rs
lines 163-169): collect bytes up to an excluded zero terminator; an
exhausted stream propagates `EndOfFile` (`none`). -/
def readNul : List Nat → Option (List Nat × List Nat)
  | [] => none
  | b :: t =>
    if b = 0 then some ([], t)
    else (readNul t).map fun p => (b :: p.1, p.2)

/-- Optional null-terminated field: read it when its flag bit is set,
otherwise collect nothing. -/
def readStr (flag : Bool) (l : List Nat) : Option (List Nat × List Nat) :=
  if flag then readNul l else some ([], l)

/-- Optional FEXTRA field (src/gzip.rs lines 155-159): a little-endian u16
length followed by that many bytes, read and discarded; a short stream is an
unexpected end of file (`none`, upgraded to `InvalidInput` by the
caller). -/
def readExtra (flag : Bool) (l : List Nat) : Option (List Nat) :=
  if flag then
    match l with
    | b0 :: b1 :: t =>
      let xlen := b0 + 256 * b1
      if t.length < xlen then none else some (t.drop xlen)
    | _ => none
  else some l

/-- `Decoder::member` (src/gzip.rs lines 98-206) up to the end of the header.
Modelled from the spec for the byte transport: the source routes all header
reads through `flate::Decoder` (whose code is not under src/); per spec
§4.4 the header bytes are consumed directly from the underlying byte
stream.  The checks themselves follow the source: an empty stream is the
clean `EndOfFile` signal; fewer than 10 header bytes is an unexpected end of
file; bytes 0-1 must be `0x1f 0x8b`; byte 2 must be 8; bits 5-7 of the flag
byte 3 must be clear.  Then the optional FEXTRA/FNAME/FCOMMENT fields are
consumed, and if FHCRC is set a little-endian u16 is compared against the
low 16 bits of the CRC-32 of every header byte consumed so far. -/
def gzipMember (s : List Nat) : GzResult :=
  if s.length = 0 then .eof
  else if s.length < 10 then .errInvalid "unexpected end of file"
  else
    let buf := s.take 10
    let r0 := s.drop 10
    if buf.getD 0 0 != 0x1f || buf.getD 1 0 != 0x8b then
      .errInvalid "not a gzip stream"
    else if buf.getD 2 0 != 8 then
      .errInvalid "unsupport compression method"
    else
      let flg := buf.getD 3 0
      if flg &&& (32 + 64 + 128) != 0 then
        .errInvalid "reserved bits are set; refusing to read an unknown format"
      else
        match readExtra (flg &&& 4 != 0) r0 with
        | none => .errInvalid "unexpected end of file"
        | some r1 =>
          match readStr (flg &&& 8 != 0) r1 with
          | none => .eof
          | some p1 =>
            match readStr (flg &&& 16 != 0) p1.2 with
            | none => .eof
            | some p2 =>
              let crc := (State32.new.feed (s.take (s.length - p2.2.length))).crc32
              if flg &&& 2 != 0 then
                match p2.2 with
                | c0 :: c1 :: r4 =>
                  if crc &&& 0xffff != c0 + 256 * c1 then
                    .errInvalid "header checksum invalid"
                  else .member p1.1 p2.1 r4
                | _ => .errInvalid "unexpected end of file"
              else .member p1.1 p2.1 p2.2

/-! ### Arithmetic of disjoint bit ranges -/

theorem lor_mul_pow (k a b : Nat) (h : a < 2 ^ k) : a ||| (b * 2 ^ k) = a + b * 2 ^ k := by
  induction k generalizing a b with
  | zero =>
    have ha : a = 0 := by omega
    subst ha
    simp [Nat.zero_or]
  | succ k ih =>
    have hb : b * 2 ^ (k + 1) = Nat.bit false (b * 2 ^ k) := by
      rw [Nat.bit_val]
      simp [pow_succ]
      ring
    have hd : a.div2 < 2 ^ k := by
      have h2 : (2 : Nat) ^ (k + 1) = 2 * 2 ^ k := by ring
      rw [Nat.div2_val]
      omega
    have hba := Nat.bodd_add_div2 a
    have h2 : b * 2 ^ (k + 1) = 2 * (b * 2 ^ k) := by ring
    calc a ||| (b * 2 ^ (k + 1))
        = Nat.bit a.bodd a.div2 ||| Nat.bit false (b * 2 ^ k) := by
          rw [Nat.bit_decomp, ← hb]
      _ = Nat.bit (a.bodd || false) (a.div2 ||| b * 2 ^ k) := Nat.lor_bit ..
      _ = Nat.bit a.bodd (a.div2 + b * 2 ^ k) := by rw [Bool.or_false, ih _ _ hd]
      _ = a + b * 2 ^ (k + 1) := by
          rw [Nat.bit_val]
          omega

theorem lor_or_128 {x : Nat} (h : x < 128) : x ||| 128 = x + 128 := by
  have h7 : (128 : Nat) = 1 * 2 ^ 7 := by norm_num
  calc x ||| 128 = x ||| 1 * 2 ^ 7 := by rw [← h7]
    _ = x + 1 * 2 ^ 7 := lor_mul_pow 7 x 1 (by omega)
    _ = x + 128 := by norm_num

theorem isFinal_high {n : Nat} (h : n < 128) : isFinalRunByte (n + 128) = true := by
  unfold isFinalRunByte
  rw [Nat.land_comm, show (128 : Nat) = 2 ^ 7 from by norm_num, Nat.and_two_pow]
  have htb : (n + 2 ^ 7).testBit 7 = true := by
    simp only [Nat.testBit_to_div_mod, decide_eq_true_eq]
    norm_num
    omega
  rw [htb]
  simp

theorem isFinal_low {b : Nat} (h : b < 128) : isFinalRunByte b = false := by
  unfold isFinalRunByte
  rw [Nat.land_comm, show (128 : Nat) = 2 ^ 7 from by norm_num, Nat.and_two_pow]
  have htb : b.testBit 7 = false := Nat.testBit_eq_false_of_lt (by norm_num; omega)
  rw [htb]
  simp

/-! ### The value of continuation-byte lists -/

theorem valAux_nil : valAux [] = 0 := rfl

theorem valAux_cons (b : Nat) (t : List Nat) :
    valAux (b :: t) = b % 128 + 128 * valAux t := rfl

theorem valAux_append (l m : List Nat) :
    valAux (l ++ m) = valAux l + 128 ^ l.length * valAux m := by
  induction l with
  | nil => simp [valAux]
  | cons b t ih =>
    simp only [List.cons_append, valAux_cons, ih, List.length_cons, pow_succ]
    ring

theorem valAux_lt (l : List Nat) : valAux l < 128 ^ l.length := by
  induction l with
  | nil => simp [valAux]
  | cons b t ih =>
    have hb : b % 128 < 128 := Nat.mod_lt _ (by norm_num)
    have h2 : (128 : Nat) ^ (t.length + 1) = 128 ^ t.length * 128 := pow_succ ..
    simp only [valAux_cons, List.length_cons]
    omega

theorem valAux_replicate_zero (m : Nat) : valAux (List.replicate m 0) = 0 := by
  induction m with
  | zero => rfl
  | succ m ih => simp [List.replicate_succ, valAux_cons, ih]

theorem set_append_len (l m : List Nat) (v : Nat) :
    (l ++ m).set l.length v = l ++ m.set 0 v := by
  induction l with
  | nil => simp
  | cons a t ih => simp [ih]

/-! ### `to_run` computes the weighted sum of the low 7 bits -/

theorem toReps_fold (l : List Nat) : ∀ i acc, acc < 128 ^ i →
    (List.enumFrom i l).foldl (fun reps p => reps ||| ((p.2 % 128) <<< (p.1 * 7))) acc
      = acc + 128 ^ i * valAux l := by
  induction l with
  | nil =>
    intro i acc _
    simp [valAux]
  | cons b t ih =>
    intro i acc hacc
    rw [List.enumFrom_cons, List.foldl_cons]
    have hpow : (128 : Nat) ^ i = 2 ^ (i * 7) := by
      rw [show i * 7 = 7 * i from Nat.mul_comm .., pow_mul]
      norm_num
    have hshift : (b % 128) <<< (i * 7) = (b % 128) * 2 ^ (i * 7) := Nat.shiftLeft_eq ..
    have hlor : acc ||| ((b % 128) <<< (i * 7)) = acc + (b % 128) * 128 ^ i := by
      rw [hshift, hpow, lor_mul_pow (i * 7) acc (b % 128) (by rw [← hpow]; exact hacc)]
    rw [hlor]
    have hb : b % 128 < 128 := Nat.mod_lt _ (by norm_num)
    have h2 : (128 : Nat) ^ (i + 1) = 128 ^ i * 128 := pow_succ ..
    have hx : (b % 128) * 128 ^ i ≤ 127 * 128 ^ i := Nat.mul_le_mul_right _ (by omega)
    have hacc1 : acc + (b % 128) * 128 ^ i < 128 ^ (i + 1) := by omega
    rw [ih (i + 1) _ hacc1, valAux_cons, h2]
    ring

theorem toReps_eq (rb : RunBuilder) : rb.toReps = 2 + valAux rb.slice := by
  unfold RunBuilder.toReps
  rw [toReps_fold rb.slice 0 0 (by norm_num)]
  simp

/-! ### Length of the varint encoding -/

theorem varint_lt128 {n : Nat} (h : n < 128) : varint n = [n + 128] := by
  rw [varint, dif_pos h]

theorem varint_ge128 {n : Nat} (h : 128 ≤ n) :
    varint n = (n % 128) :: varint (n / 128) := by
  rw [varint, dif_neg (by omega)]

theorem varlen_lt128 {n : Nat} (h : n < 128) : varlen n = 1 := by
  unfold varlen
  rw [varint_lt128 h]
  rfl

theorem varlen_ge128 {n : Nat} (h : 128 ≤ n) : varlen n = varlen (n / 128) + 1 := by
  unfold varlen
  rw [varint_ge128 h]
  rfl

theorem varlen_pos (n : Nat) : 1 ≤ varlen n := by
  by_cases h : n < 128
  · rw [varlen_lt128 h]
  · rw [varlen_ge128 (by omega)]
    omega

theorem varlen_le (k : Nat) : ∀ n, n < 128 ^ (k + 1) → varlen n ≤ k + 1 := by
  induction k with
  | zero =>
    intro n h
    rw [varlen_lt128 (by simpa using h)]
  | succ k ih =>
    intro n h
    by_cases hn : n < 128
    · rw [varlen_lt128 hn]
      omega
    · rw [varlen_ge128 (by omega)]
      have h2 : (128 : Nat) ^ (k + 2) = 128 ^ (k + 1) * 128 := pow_succ ..
      have : n / 128 < 128 ^ (k + 1) := by omega
      exact Nat.succ_le_succ (ih _ this)

theorem varlen_gt (k : Nat) : ∀ n, 128 ^ k ≤ n → k + 1 ≤ varlen n := by
  induction k with
  | zero => intro n _; exact varlen_pos n
  | succ k ih =>
    intro n h
    have h1 : (128 : Nat) ^ 1 ≤ 128 ^ (k + 1) := Nat.pow_le_pow_right (by norm_num) (by omega)
    have hn : 128 ≤ n := le_trans (by simpa using h1) h
    rw [varlen_ge128 hn]
    have hdiv : 128 ^ k ≤ n / 128 := by
      rw [Nat.le_div_iff_mul_le (by norm_num)]
      calc 128 ^ k * 128 = 128 ^ (k + 1) := (pow_succ ..).symm
        _ ≤ n := h
    exact Nat.succ_le_succ (ih _ hdiv)

/-! ### The flush write loop produces the varint -/

theorem flushLoop_some (n : Nat) : ∀ (front : List Nat) (m : Nat), varlen n ≤ m →
    flushLoop n (front ++ List.replicate m 0) front.length
      = some (front ++ varint n ++ List.replicate (m - varlen n) 0,
              front.length + (varlen n - 1)) := by
  induction n using Nat.strong_induction_on with
  | _ n ih =>
    intro front m hm
    have hm1 : 1 ≤ m := le_trans (varlen_pos n) hm
    obtain ⟨m', rfl⟩ : ∃ m', m = m' + 1 := ⟨m - 1, by omega⟩
    rw [flushLoop, if_pos (by simp)]
    have hrep : List.replicate (m' + 1) (0 : Nat) = 0 :: List.replicate m' 0 :=
      List.replicate_succ ..
    have hset1 : (front ++ List.replicate (m' + 1) 0).set front.length (n % 128)
        = front ++ (n % 128) :: List.replicate m' 0 := by
      rw [hrep, set_append_len]
      rfl
    by_cases hn : n < 128
    · rw [dif_pos (Nat.div_eq_of_lt hn)]
      simp only [hset1]
      have hset2 : (front ++ (n % 128) :: List.replicate m' 0).set front.length
          ((n % 128) ||| 128) = front ++ ((n % 128) ||| 128) :: List.replicate m' 0 := by
        rw [set_append_len]
        rfl
      rw [hset2, Nat.mod_eq_of_lt hn, lor_or_128 hn, varint_lt128 hn, varlen_lt128 hn]
      simp
    · rw [dif_neg (by intro h0; exact hn (by omega))]
      rw [hset1]
      have hsplit : front ++ (n % 128) :: List.replicate m' 0
          = (front ++ [n % 128]) ++ List.replicate m' 0 := by simp
      have hlen : front.length + 1 = (front ++ [n % 128]).length := by simp
      have hvl : varlen n = varlen (n / 128) + 1 := varlen_ge128 (by omega)
      have hvp : 1 ≤ varlen (n / 128) := varlen_pos _
      rw [hsplit, hlen, ih (n / 128) (Nat.div_lt_self (by omega) (by norm_num))
        (front ++ [n % 128]) m' (by omega)]
      rw [@varint_ge128 n (by omega)]
      simp only [Option.some.injEq, Prod.mk.injEq, List.append_assoc,
        List.cons_append, List.singleton_append, List.length_append,
        List.length_singleton, List.nil_append]
      constructor
      · rw [show m' - varlen (n / 128) = m' + 1 - varlen n from by omega]
      · omega

theorem flushLoop_none (n : Nat) : ∀ (front : List Nat) (m : Nat), m < varlen n →
    flushLoop n (front ++ List.replicate m 0) front.length = none := by
  induction n using Nat.strong_induction_on with
  | _ n ih =>
    intro front m hm
    match m with
    | 0 =>
      rw [flushLoop, if_neg (by simp)]
    | m' + 1 =>
      have hn : ¬n < 128 := by
        intro h0
        rw [varlen_lt128 h0] at hm
        omega
      rw [flushLoop, if_pos (by simp)]
      rw [dif_neg (by intro h0; exact hn (by omega))]
      have hrep : List.replicate (m' + 1) (0 : Nat) = 0 :: List.replicate m' 0 :=
        List.replicate_succ ..
      have hset1 : (front ++ List.replicate (m' + 1) 0).set front.length (n % 128)
          = front ++ (n % 128) :: List.replicate m' 0 := by
        rw [hrep, set_append_len]
        rfl
      rw [hset1]
      have hsplit : front ++ (n % 128) :: List.replicate m' 0
          = (front ++ [n % 128]) ++ List.replicate m' 0 := by simp
      have hlen : front.length + 1 = (front ++ [n % 128]).length := by simp
      have hvl : varlen n = varlen (n / 128) + 1 := varlen_ge128 (by omega)
      rw [hsplit, hlen]
      exact ih (n / 128) (Nat.div_lt_self (by omega) (by norm_num))
        (front ++ [n % 128]) m' (by omega)

/-! ### `Encoder::flush` succeeds exactly up to nine continuation bytes -/

theorem reps_sub_two_lt {r : Nat} (h : r ≤ 2 ^ 63 + 1) : r - 2 < 128 ^ 9 := by
  have : (128 : Nat) ^ 9 = 2 ^ 63 := by norm_num
  omega

theorem varlen_le_nine {r : Nat} (h : r ≤ 2 ^ 63 + 1) : varlen (r - 2) ≤ 9 := by
  have h9 : (128 : Nat) ^ 9 = 128 ^ (8 + 1) := by norm_num
  exact varlen_le 8 (r - 2) (by rw [← h9]; exact reps_sub_two_lt h)

theorem rleFlush_small (s : EncState) (h1 : 1 ≤ s.reps) (h2 : s.reps ≤ 2 ^ 63 + 1) :
    rleFlush s = some (s, flushBytes s.byte s.reps) := by
  unfold rleFlush flushBytes
  by_cases hr : s.reps = 1
  · simp [hr]
  · have hr2 : s.reps > 1 := by omega
    rw [if_neg hr, if_pos hr2, if_neg hr, if_pos hr2]
    have hfront : s.byte :: s.byte :: List.replicate 9 (0 : Nat)
        = [s.byte, s.byte] ++ List.replicate 9 0 := rfl
    have hloop := flushLoop_some (s.reps - 2) [s.byte, s.byte] 9 (varlen_le_nine h2)
    simp only [List.length_cons, List.length_nil, Nat.zero_add] at hloop
    rw [hfront, hloop, Option.map_some']
    have hvp : 1 ≤ varlen (s.reps - 2) := varlen_pos _
    have htake : (1 + 1 + (varlen (s.reps - 2) - 1) + 1)
        = ([s.byte, s.byte] ++ varint (s.reps - 2)).length := by
      simp only [List.length_append, List.length_cons, List.length_nil]
      unfold varlen at hvp ⊢
      omega
    simp only
    rw [htake, List.take_left]
    simp

theorem rleFlush_big (s : EncState) (h : 2 ^ 63 + 2 ≤ s.reps) : rleFlush s = none := by
  unfold rleFlush
  rw [if_neg (by omega), if_pos (by omega)]
  have h10 : 10 ≤ varlen (s.reps - 2) := by
    have h9 : (128 : Nat) ^ 9 = 2 ^ 63 := by norm_num
    exact varlen_gt 9 (s.reps - 2) (by omega)
  have hfront : s.byte :: s.byte :: List.replicate 9 (0 : Nat)
      = [s.byte, s.byte] ++ List.replicate 9 0 := rfl
  have hloop := flushLoop_none (s.reps - 2) [s.byte, s.byte] 9 (by omega)
  simp only [List.length_cons, List.length_nil, Nat.zero_add] at hloop
  rw [hfront, hloop]
  rfl

/-! ### Shape of the varint bytes -/

theorem varint_dropLast_low (n : Nat) : ∀ d ∈ (varint n).dropLast, d < 128 := by
  induction n using Nat.strong_induction_on with
  | _ n ih =>
    intro d hd
    by_cases hn : n < 128
    · rw [varint_lt128 hn] at hd
      simp at hd
    · rw [varint_ge128 (by omega)] at hd
      have hne : varint (n / 128) ≠ [] := by
        have := varlen_pos (n / 128)
        unfold varlen at this
        intro h0
        rw [h0] at this
        simp at this
      rw [List.dropLast_cons_of_ne_nil hne] at hd
      rcases List.mem_cons.1 hd with h0 | h0
      · subst h0
        exact Nat.mod_lt _ (by norm_num)
      · exact ih (n / 128) (Nat.div_lt_self (by omega) (by norm_num)) d h0

theorem varint_getLast_high (n : Nat) :
    ∀ l, (varint n).getLast? = some l → 128 ≤ l ∧ l < 256 := by
  induction n using Nat.strong_induction_on with
  | _ n ih =>
    intro l hl
    by_cases hn : n < 128
    · rw [varint_lt128 hn] at hl
      simp at hl
      omega
    · rw [varint_ge128 (by omega)] at hl
      have hne : varint (n / 128) ≠ [] := by
        have := varlen_pos (n / 128)
        unfold varlen at this
        intro h0
        rw [h0] at this
        simp at this
      obtain ⟨c, t, h0⟩ := List.exists_cons_of_ne_nil hne
      rw [h0, List.getLast?_cons_cons] at hl
      exact ih (n / 128) (Nat.div_lt_self (by omega) (by norm_num)) l (by rw [h0]; exact hl)

/-! ### Reduction helpers for the `Except` and `Option` monads -/

theorem option_bind_some {α β : Type} (a : α) (f : α → Option β) :
    (do let x ← some a; f x) = f a := rfl

theorem option_pure_eq {α : Type} (a : α) : (pure a : Option α) = some a := rfl

theorem option_bind_none {α β : Type} (f : α → Option β) :
    (do let x ← (none : Option α); f x) = none := rfl

theorem except_bind_ok {ε α β : Type} (a : α) (f : α → Except ε β) :
    (do let x ← (Except.ok a : Except ε α); f x) = f a := rfl

theorem except_bind_error {ε α β : Type} (e : ε) (f : α → Except ε β) :
    (do let x ← (Except.error e : Except ε α); f x) = Except.error e := rfl

theorem except_map_ok {ε α β : Type} (f : α → β) (a : α) :
    Except.map f (Except.ok a : Except ε α) = Except.ok (f a) := rfl

theorem except_map_error {ε α β : Type} (f : α → β) (e : ε) :
    Except.map f (Except.error e : Except ε α) = Except.error e := rfl

theorem except_pure_eq {ε α : Type} (a : α) : (pure a : Except ε α) = Except.ok a := rfl

/-! ### The decoder parses a varint back into its count -/

theorem rleDecode_run_varint (n : Nat) :
    ∀ (rb : RunBuilder) (front rest : List Nat),
    rb.slice = front ++ List.replicate (9 - rb.byteCount) 0 →
    front.length = rb.byteCount →
    rb.byteCount + varlen n ≤ 9 →
    rleDecode (.run rb) (varint n ++ rest) =
      (rleDecode .clean rest).map
        (fun t => List.replicate (2 + valAux front + n * 128 ^ rb.byteCount) rb.byte ++ t) := by
  induction n using Nat.strong_induction_on with
  | _ n ih =>
    intro rb front rest hslice hlen hcnt
    have hvp : 1 ≤ varlen n := varlen_pos n
    have hc9 : rb.byteCount < 9 := by omega
    obtain ⟨k, hk⟩ : ∃ k, 9 - rb.byteCount = k + 1 := ⟨9 - rb.byteCount - 1, by omega⟩
    by_cases hn : n < 128
    · rw [varint_lt128 hn]
      show rleDecode (.run rb) ((n + 128) :: rest) = _
      have hadd : rb.addByte (n + 128) = .ok
          ⟨rb.byte, rb.slice.set rb.byteCount (n + 128), rb.byteCount + 1⟩ := by
        unfold RunBuilder.addByte
        rw [if_neg (by omega)]
      have hslice1 : rb.slice.set rb.byteCount (n + 128)
          = front ++ (n + 128) :: List.replicate k 0 := by
        rw [hslice, hk, List.replicate_succ, ← hlen, set_append_len]
        rfl
      have hreps : (⟨rb.byte, rb.slice.set rb.byteCount (n + 128),
            rb.byteCount + 1⟩ : RunBuilder).toReps
          = 2 + valAux front + n * 128 ^ rb.byteCount := by
        rw [toReps_eq]
        show 2 + valAux (rb.slice.set rb.byteCount (n + 128)) = _
        rw [hslice1, valAux_append, valAux_cons, valAux_replicate_zero, hlen]
        have hmod : (n + 128) % 128 = n := by omega
        rw [hmod]
        ring
      rw [rleDecode, hadd, except_bind_ok, isFinal_high hn, if_pos rfl]
      cases h : rleDecode DecoderState.clean rest with
      | ok tail =>
        rw [except_bind_ok, except_map_ok, except_pure_eq]
        show Except.ok (List.replicate
            ((⟨rb.byte, rb.slice.set rb.byteCount (n + 128),
              rb.byteCount + 1⟩ : RunBuilder).toReps) rb.byte ++ tail) = _
        rw [hreps]
      | error e =>
        rw [except_bind_error, except_map_error]
    · have h128 : 128 ≤ n := by omega
      rw [varint_ge128 h128, List.cons_append]
      have hmod : n % 128 < 128 := Nat.mod_lt _ (by norm_num)
      have hadd : rb.addByte (n % 128) = .ok
          ⟨rb.byte, rb.slice.set rb.byteCount (n % 128), rb.byteCount + 1⟩ := by
        unfold RunBuilder.addByte
        rw [if_neg (by omega)]
      have hvl : varlen n = varlen (n / 128) + 1 := varlen_ge128 h128
      have hslice1 : rb.slice.set rb.byteCount (n % 128)
          = (front ++ [n % 128]) ++ List.replicate k 0 := by
        rw [hslice, hk, List.replicate_succ, ← hlen, set_append_len]
        simp
      have hih := ih (n / 128) (Nat.div_lt_self (by omega) (by norm_num))
        ⟨rb.byte, rb.slice.set rb.byteCount (n % 128), rb.byteCount + 1⟩
        (front ++ [n % 128]) rest
        (by show rb.slice.set rb.byteCount (n % 128)
              = (front ++ [n % 128]) ++ List.replicate (9 - (rb.byteCount + 1)) 0
            rw [hslice1, show 9 - (rb.byteCount + 1) = k from by omega])
        (by simp [hlen])
        (by show rb.byteCount + 1 + varlen (n / 128) ≤ 9; omega)
      rw [rleDecode, hadd, except_bind_ok, isFinal_low hmod,
        if_neg (by simp)]
      show rleDecode (.run ⟨rb.byte, rb.slice.set rb.byteCount (n % 128),
          rb.byteCount + 1⟩) (varint (n / 128) ++ rest) = _
      rw [hih]
      have hval : valAux (front ++ [n % 128])
          = valAux front + 128 ^ rb.byteCount * (n % 128) := by
        rw [valAux_append, hlen]
        have h1 : valAux [n % 128] = n % 128 := by
          show n % 128 % 128 + 128 * valAux [] = n % 128
          rw [valAux_nil]
          omega
        rw [h1]
      have harith : 2 + valAux (front ++ [n % 128])
            + n / 128 * 128 ^ (rb.byteCount + 1)
          = 2 + valAux front + n * 128 ^ rb.byteCount := by
        rw [hval]
        conv_rhs => rw [show n = 128 * (n / 128) + n % 128
          from (Nat.div_add_mod n 128).symm]
        ring
      show Except.map (fun t => List.replicate (2 + valAux (front ++ [n % 128])
          + n / 128 * 128 ^ (rb.byteCount + 1)) rb.byte ++ t)
          (rleDecode DecoderState.clean rest) = _
      rw [harith]

/-! ### Single-step equations for the decoder -/

theorem rleDecode_clean_cons (b : Nat) (rest : List Nat) :
    rleDecode .clean (b :: rest) = rleDecode (.single b) rest := rfl

theorem rleDecode_single_same (a : Nat) (rest : List Nat) :
    rleDecode (.single a) (a :: rest) = rleDecode (.run (RunBuilder.new a)) rest := by
  rw [rleDecode, if_pos rfl]

theorem rleDecode_single_ne {a b : Nat} (h : b ≠ a) (rest : List Nat) :
    rleDecode (.single a) (b :: rest)
      = (rleDecode (.single b) rest).map (fun t => a :: t) := by
  rw [rleDecode, if_neg h]
  cases hh : rleDecode (.single b) rest with
  | ok tail => rw [except_bind_ok, except_map_ok, except_pure_eq]
  | error e => rw [except_bind_error, except_map_error]

/-! ### The decoder inverts the encoding of a well-formed run list -/

theorem encodeRuns_cons (p : Nat × Nat) (rs : List (Nat × Nat)) :
    encodeRuns (p :: rs) = flushBytes p.1 p.2 ++ encodeRuns rs := by
  simp [encodeRuns]

theorem expandRuns_cons (p : Nat × Nat) (rs : List (Nat × Nat)) :
    expandRuns (p :: rs) = List.replicate p.2 p.1 ++ expandRuns rs := by
  simp [expandRuns]

theorem rleDecode_encodeRuns (rs : List (Nat × Nat)) (hwf : RunsWF rs) :
    rleDecode .clean (encodeRuns rs) = .ok (expandRuns rs) ∧
    ∀ a, headByte rs ≠ some a →
      rleDecode (.single a) (encodeRuns rs) = .ok (a :: expandRuns rs) := by
  induction rs with
  | nil =>
    exact ⟨rfl, fun a _ => rfl⟩
  | cons p rest ih =>
    obtain ⟨b, c⟩ := p
    obtain ⟨h1, h2, h3, h4⟩ := hwf
    obtain ⟨ihc, ihs⟩ := ih h4
    have hb_ne : ∀ a, headByte ((b, c) :: rest) ≠ some a → b ≠ a := by
      intro a ha hba
      exact ha (by simp [headByte, hba])
    by_cases hc1 : c = 1
    · subst hc1
      have henc : encodeRuns ((b, 1) :: rest) = b :: encodeRuns rest := by
        rw [encodeRuns_cons]
        simp [flushBytes]
      have hexp : expandRuns ((b, 1) :: rest) = b :: expandRuns rest := by
        rw [expandRuns_cons]
        simp
      constructor
      · rw [henc, hexp, rleDecode_clean_cons]
        exact ihs b h3
      · intro a ha
        rw [henc, hexp, rleDecode_single_ne (hb_ne a ha), ihs b h3, except_map_ok]
    · have hc2 : 2 ≤ c := by omega
      have henc : encodeRuns ((b, c) :: rest)
          = b :: b :: (varint (c - 2) ++ encodeRuns rest) := by
        rw [encodeRuns_cons]
        simp only [flushBytes]
        rw [if_neg hc1, if_pos (by omega)]
        simp
      have hexp : expandRuns ((b, c) :: rest)
          = List.replicate c b ++ expandRuns rest := expandRuns_cons ..
      have hvarint := rleDecode_run_varint (c - 2) (RunBuilder.new b) []
        (encodeRuns rest) (by simp [RunBuilder.new]) (by simp [RunBuilder.new])
        (by simpa [RunBuilder.new] using varlen_le_nine h2)
      have hinner : rleDecode (.single b) (b :: (varint (c - 2) ++ encodeRuns rest))
          = .ok (List.replicate c b ++ expandRuns rest) := by
        rw [rleDecode_single_same, hvarint, ihc, except_map_ok]
        have hcount : 2 + valAux [] + (c - 2) * 128 ^ (RunBuilder.new b).byteCount
            = c := by
          simp [valAux_nil, RunBuilder.new]
          omega
        rw [hcount]
        rfl
      constructor
      · rw [henc, hexp, rleDecode_clean_cons, hinner]
      · intro a ha
        rw [henc, hexp, rleDecode_single_ne (hb_ne a ha), hinner, except_map_ok]

/-! ### Maximal-run decomposition facts -/

theorem runsAux_eq_cons (b r c : Nat) (t : List Nat) :
    runsAux b r (c :: t)
      = if c = b then runsAux b (r + 1) t else (b, r) :: runsAux c 1 t := rfl

theorem runsAux_head_count : ∀ (t : List Nat) (b r : Nat),
    ∃ k, (runsAux b r t).head? = some (b, r + k) := by
  intro t
  induction t with
  | nil => exact fun b r => ⟨0, rfl⟩
  | cons c t ih =>
    intro b r
    rw [runsAux_eq_cons]
    by_cases hc : c = b
    · rw [if_pos hc]
      obtain ⟨k, hk⟩ := ih b (r + 1)
      exact ⟨k + 1, by rw [hk, show r + 1 + k = r + (k + 1) from by omega]⟩
    · rw [if_neg hc]
      exact ⟨0, rfl⟩

theorem runsAux_headByte (t : List Nat) (b r : Nat) :
    headByte (runsAux b r t) = some b := by
  obtain ⟨k, hk⟩ := runsAux_head_count t b r
  rw [headByte, hk]
  rfl

theorem runsAux_head_mem (t : List Nat) (b r : Nat) {x : Nat × Nat}
    (h : (runsAux b r t).head? = some x) : x ∈ runsAux b r t :=
  List.mem_of_mem_head? (by rw [h]; rfl)

theorem runsWF_cons (p : Nat × Nat) (rest : List (Nat × Nat)) :
    RunsWF (p :: rest)
      ↔ 1 ≤ p.2 ∧ p.2 ≤ 2 ^ 63 + 1 ∧ headByte rest ≠ some p.1 ∧ RunsWF rest :=
  Iff.rfl

theorem runsAux_wf : ∀ (t : List Nat) (b r : Nat), 1 ≤ r →
    (∀ p ∈ runsAux b r t, p.2 ≤ 2 ^ 63 + 1) → RunsWF (runsAux b r t) := by
  intro t
  induction t with
  | nil =>
    intro b r h1 hb
    refine ⟨h1, hb (b, r) (by simp [runsAux]), ?_, trivial⟩
    simp [headByte]
  | cons c t ih =>
    intro b r h1 hb
    rw [runsAux_eq_cons] at hb ⊢
    by_cases hc : c = b
    · rw [if_pos hc] at hb ⊢
      exact ih b (r + 1) (by omega) hb
    · rw [if_neg hc] at hb ⊢
      refine ⟨h1, hb (b, r) (by simp), ?_, ?_⟩
      · rw [runsAux_headByte]
        simp only [ne_eq, Option.some.injEq]
        exact fun h => hc h
      · exact ih c 1 (by omega) (fun p hp => hb p (by simp [hp]))

theorem expandRuns_runsAux : ∀ (t : List Nat) (b r : Nat),
    expandRuns (runsAux b r t) = List.replicate r b ++ t := by
  intro t
  induction t with
  | nil =>
    intro b r
    show expandRuns [(b, r)] = _
    rw [expandRuns_cons]
    simp [expandRuns]
  | cons c t ih =>
    intro b r
    rw [runsAux_eq_cons]
    by_cases hc : c = b
    · rw [if_pos hc, ih b (r + 1), hc, List.replicate_succ' r b]
      simp
    · rw [if_neg hc, expandRuns_cons, ih c 1]
      simp

/-! ### The encoder emits the concatenated run encodings -/

theorem rleFinishFrom_cons (s : EncState) (c : Nat) (t : List Nat)
    (s1 : EncState) (o1 : List Nat) (h : processByte s c = some (s1, o1)) :
    rleFinishFrom s (c :: t) = (rleFinishFrom s1 t).map fun out => o1 ++ out := by
  unfold rleFinishFrom
  rw [rleWrite, h]
  simp only [option_bind_some]
  cases h2 : rleWrite s1 t with
  | none => rfl
  | some p2 =>
    simp only [option_pure_eq, option_bind_some]
    cases h3 : rleFlush p2.1 with
    | none => rfl
    | some q => simp [List.append_assoc]

theorem processByte_same (r b : Nat) (h : r + 1 < 2 ^ 64) :
    processByte ⟨r, b, true⟩ b = some (⟨r + 1, b, true⟩, []) := by
  have hmod : (r + 1) % 2 ^ 64 = r + 1 := Nat.mod_eq_of_lt h
  unfold processByte
  rw [if_neg (by simp), if_pos rfl]
  show some ((⟨(r + 1) % 2 ^ 64, b, true⟩ : EncState), ([] : List Nat))
      = some ((⟨r + 1, b, true⟩ : EncState), ([] : List Nat))
  rw [hmod]

theorem processByte_diff (r b c : Nat) (hbc : b ≠ c) (h1 : 1 ≤ r)
    (h2 : r ≤ 2 ^ 63 + 1) :
    processByte ⟨r, b, true⟩ c = some (⟨1, c, true⟩, flushBytes b r) := by
  unfold processByte
  rw [if_neg (by simp), if_neg hbc, rleFlush_small ⟨r, b, true⟩ h1 h2, Option.map_some']

theorem processByte_fresh (b : Nat) :
    processByte EncState.new b = some (⟨1, b, true⟩, []) := by
  simp [processByte, EncState.new]

theorem rleFinishFrom_runs : ∀ (t : List Nat) (b r : Nat), 1 ≤ r →
    (∀ p ∈ runsAux b r t, p.2 ≤ 2 ^ 63 + 1) →
    rleFinishFrom ⟨r, b, true⟩ t = some (encodeRuns (runsAux b r t)) := by
  intro t
  induction t with
  | nil =>
    intro b r h1 hb
    have hr2 : r ≤ 2 ^ 63 + 1 := hb (b, r) (by simp [runsAux])
    unfold rleFinishFrom
    rw [rleWrite]
    simp only [option_bind_some]
    rw [rleFlush_small ⟨r, b, true⟩ h1 hr2]
    simp only [option_bind_some, option_pure_eq]
    show some ([] ++ flushBytes b r) = some (encodeRuns (runsAux b r []))
    rw [show runsAux b r [] = [(b, r)] from rfl, encodeRuns_cons]
    simp [encodeRuns]
  | cons c t ih =>
    intro b r h1 hb
    rw [runsAux_eq_cons] at hb ⊢
    by_cases hc : c = b
    · rw [if_pos hc] at hb ⊢
      subst hc
      obtain ⟨k, hk⟩ := runsAux_head_count t c (r + 1)
      have hmem := runsAux_head_mem t c (r + 1) hk
      have hb1 : r + 1 + k ≤ 2 ^ 63 + 1 := by
        have := hb _ hmem
        simpa using this
      have hlt : r + 1 < 2 ^ 64 := by omega
      rw [rleFinishFrom_cons _ _ _ _ _ (processByte_same r c hlt),
        ih c (r + 1) (by omega) hb]
      simp
    · rw [if_neg hc] at hb ⊢
      have hr2 : r ≤ 2 ^ 63 + 1 := by
        have := hb (b, r) (by simp)
        simpa using this
      rw [rleFinishFrom_cons _ _ _ _ _
          (processByte_diff r b c (fun h => hc h.symm) h1 hr2),
        ih c 1 (by omega) (fun p hp => hb p (by simp [hp])),
        Option.map_some', encodeRuns_cons]

theorem rleEncode_eq_finishFrom (x : List Nat) :
    rleEncode x = rleFinishFrom EncState.new x := rfl

theorem rleEncode_eq_runs (x : List Nat)
    (hb : ∀ p ∈ runsOf x, p.2 ≤ 2 ^ 63 + 1) :
    rleEncode x = some (encodeRuns (runsOf x)) := by
  match x with
  | [] => rfl
  | b :: t =>
    rw [rleEncode_eq_finishFrom,
      rleFinishFrom_cons _ _ _ _ _ (processByte_fresh b),
      rleFinishFrom_runs t b 1 (by omega) (by simpa [runsOf] using hb)]
    simp [runsOf]

theorem rleWrite_replicate : ∀ (k b r : Nat), r + k < 2 ^ 64 →
    rleWrite ⟨r, b, true⟩ (List.replicate k b) = some (⟨r + k, b, true⟩, []) := by
  intro k
  induction k with
  | zero =>
    intro b r h
    simp [rleWrite]
  | succ k ih =>
    intro b r h
    rw [List.replicate_succ, rleWrite, processByte_same r b (by omega),
      option_bind_some, ih b (r + 1) (by omega)]
    simp [show r + 1 + k = r + (k + 1) from by omega]

theorem runsAux_replicate : ∀ (k b r : Nat),
    runsAux b r (List.replicate k b) = [(b, r + k)] := by
  intro k
  induction k with
  | zero => intro b r; simp [runsAux]
  | succ k ih =>
    intro b r
    rw [List.replicate_succ, runsAux_eq_cons, if_pos rfl, ih b (r + 1),
      show r + 1 + k = r + (k + 1) from by omega]

/-! ### Claim C1 -/

/-- C1 (corrected): the RLE round-trip `decode (encode x) = x` holds for every
byte sequence whose maximal runs all have length at most `2 ^ 63 + 1`.  (The
claim as stated, for every byte sequence, fails: a run of `2 ^ 63 + 2` equal
bytes makes `Encoder::flush` write out of bounds of its 11-byte buffer, see
the counterexample.) -/
theorem rle_roundtrip_of_bounded_runs (x : List Nat)
    (hb : ∀ p ∈ runsOf x, p.2 ≤ 2 ^ 63 + 1) :
    ∃ e, rleEncode x = some e ∧ rleDecode .clean e = .ok x := by
  refine ⟨encodeRuns (runsOf x), rleEncode_eq_runs x hb, ?_⟩
  cases x with
  | nil => rfl
  | cons b t =>
    have hwf : RunsWF (runsOf (b :: t)) :=
      runsAux_wf t b 1 (by omega) (by simpa [runsOf] using hb)
    rw [(rleDecode_encodeRuns _ hwf).1,
      show runsOf (b :: t) = runsAux b 1 t from rfl, expandRuns_runsAux]
    simp

/-- Witness for C1 at a concrete input. -/
theorem rle_roundtrip_of_bounded_runs_witness :
    (∀ p ∈ runsOf [20, 20, 20, 20, 20, 15], p.2 ≤ 2 ^ 63 + 1) ∧
    ∃ e, rleEncode [20, 20, 20, 20, 20, 15] = some e ∧
      rleDecode .clean e = .ok [20, 20, 20, 20, 20, 15] :=
  ⟨by decide, rle_roundtrip_of_bounded_runs [20, 20, 20, 20, 20, 15] (by decide)⟩

/-- Counterexample to C1 as stated: on the byte sequence consisting of
`2 ^ 63 + 2` copies of byte 5 the encoder does not produce any byte stream at
all — `flush` indexes its fixed 11-byte buffer out of bounds (a panic),
so `decode (encode x) = x` fails for this `x`. -/
theorem rle_roundtrip_unbounded_fails :
    rleEncode (List.replicate (2 ^ 63 + 2) 5) = none := by
  rw [rleEncode_eq_finishFrom,
    show (2 : Nat) ^ 63 + 2 = (2 ^ 63 + 1) + 1 from by omega,
    List.replicate_succ,
    rleFinishFrom_cons _ _ _ _ _ (processByte_fresh 5)]
  unfold rleFinishFrom
  rw [rleWrite_replicate (2 ^ 63 + 1) 5 1 (by norm_num)]
  rw [option_bind_some, rleFlush_big ⟨1 + (2 ^ 63 + 1), 5, true⟩ (by norm_num),
    option_bind_none]
  rfl

/-! ### Claim C3 -/

/-- C3 (corrected): `Encoder::flush` successfully emits any pending run whose
count is between 2 and `2 ^ 63 + 1` (nine continuation bytes), leaving the
encoder state untouched.  (The claim as stated — any count up to the maximum
`u64` value — fails: a count of `2 ^ 63 + 2` needs a tenth continuation byte
and the write loop indexes past the end of the 11-byte buffer, see the
counterexample.) -/
theorem rle_flush_succeeds_bounded (s : EncState) (h1 : 2 ≤ s.reps)
    (h2 : s.reps ≤ 2 ^ 63 + 1) : ∃ out, rleFlush s = some (s, out) :=
  ⟨flushBytes s.byte s.reps, rleFlush_small s (by omega) h2⟩

/-- Witness for C3 at a concrete state. -/
theorem rle_flush_succeeds_bounded_witness :
    2 ≤ (5 : Nat) ∧ (5 : Nat) ≤ 2 ^ 63 + 1 ∧
    ∃ out, rleFlush ⟨5, 7, true⟩ = some (⟨5, 7, true⟩, out) :=
  ⟨by norm_num, by norm_num,
    rle_flush_succeeds_bounded ⟨5, 7, true⟩ (by norm_num) (by norm_num)⟩

/-- Counterexample to C3 as stated: with a pending count of `2 ^ 63 + 2`
(representable in `u64`) the flush write loop runs out of its 11-byte buffer
and panics instead of emitting the run. -/
theorem rle_flush_u64_overflow : rleFlush ⟨2 ^ 63 + 2, 5, true⟩ = none :=
  rleFlush_big _ (by norm_num)

/-! ### Claim C4 -/

/-- C4 (corrected): the wire format of a flushed run.  A pending count of 1
is written as the single literal byte; a pending count `c` with
`2 ≤ c ≤ 2 ^ 63 + 1` is written as the byte twice followed by the base-128
little-endian varint of `c - 2`, whose groups all have the top bit clear
except the final group, which has it set; `c - 2 = 0` encodes as the single
byte `0b1000_0000`.  The four literal examples of the claim hold.  (The claim
as stated, for every count ≥ 2, fails at counts ≥ `2 ^ 63 + 2`, where flush
overruns its 11-byte buffer instead of writing the run, see the
counterexample.) -/
theorem rle_flush_wire_format :
    (∀ s : EncState, s.reps = 1 → rleFlush s = some (s, [s.byte])) ∧
    (∀ s : EncState, 2 ≤ s.reps → s.reps ≤ 2 ^ 63 + 1 →
      rleFlush s = some (s, s.byte :: s.byte :: varint (s.reps - 2)) ∧
      (∀ d ∈ (varint (s.reps - 2)).dropLast, d < 128) ∧
      (∀ l, (varint (s.reps - 2)).getLast? = some l → 128 ≤ l)) ∧
    varint 0 = [128] ∧
    rleEncode [20, 20, 20, 20, 20, 15] = some [20, 20, 131, 15] ∧
    rleEncode [0, 0] = some [0, 0, 128] ∧
    rleEncode (List.replicate 129 5) = some [5, 5, 255] ∧
    rleEncode ([1, 3, 4, 4] ++ List.replicate 182 100)
      = some [1, 3, 4, 4, 128, 100, 100, 52, 129] := by
  refine ⟨?_, ?_, ?_, ?_, ?_, ?_, ?_⟩
  · intro s h
    unfold rleFlush
    rw [if_pos h]
  · intro s h1 h2
    have hfb : flushBytes s.byte s.reps = s.byte :: s.byte :: varint (s.reps - 2) := by
      unfold flushBytes
      rw [if_neg (by omega), if_pos (by omega)]
    refine ⟨by rw [rleFlush_small s (by omega) h2, hfb], varint_dropLast_low _,
      fun l hl => (varint_getLast_high _ l hl).1⟩
  · rw [varint_lt128 (by norm_num)]
  · rw [rleEncode_eq_runs _ (by decide),
      show runsOf [20, 20, 20, 20, 20, 15] = [(20, 5), (15, 1)] from rfl]
    simp [encodeRuns, flushBytes, varint_lt128]
  · rw [rleEncode_eq_runs _ (by decide),
      show runsOf [0, 0] = [(0, 2)] from rfl]
    simp [encodeRuns, flushBytes, varint_lt128]
  · rw [rleEncode_eq_runs _ (by decide),
      show runsOf (List.replicate 129 5) = runsAux 5 1 (List.replicate 128 5) from rfl,
      runsAux_replicate 128 5 1]
    simp [encodeRuns, flushBytes, varint_lt128]
  · rw [rleEncode_eq_runs _ (by decide),
      show runsOf ([1, 3, 4, 4] ++ List.replicate 182 100)
        = (1, 1) :: (3, 1) :: (4, 2) :: runsAux 100 1 (List.replicate 181 100) from rfl,
      runsAux_replicate 181 100 1]
    simp [encodeRuns, flushBytes, varint_lt128, varint_ge128]

/-- Witness for C4 at concrete states. -/
theorem rle_flush_wire_format_witness :
    rleFlush ⟨1, 9, true⟩ = some (⟨1, 9, true⟩, [9]) ∧
    rleFlush ⟨5, 20, true⟩ = some (⟨5, 20, true⟩, 20 :: 20 :: varint 3) :=
  ⟨rle_flush_wire_format.1 ⟨1, 9, true⟩ rfl,
    (rle_flush_wire_format.2.1 ⟨5, 20, true⟩ (by decide) (by decide)).1⟩

/-- Counterexample to C4 as stated: a pending count of `2 ^ 63 + 2` is not
written as byte, byte, varint — the flush write loop overruns its buffer and
nothing is written. -/
theorem rle_flush_wire_format_fails_large :
    rleFlush ⟨2 ^ 63 + 2, 7, true⟩ = none :=
  rleFlush_big _ (Nat.le_refl _)

/-! ### Claim C5 -/

/-- C5 (confirmed): once nine continuation bytes have been accumulated for a
run, the arrival of any further byte while in the `Run` state makes the
decoder return the corrupt-stream error "Overly long run" instead of decoded
bytes.  This covers in particular every stream in which a tenth continuation
byte arrives before a terminating high-bit byte. -/
theorem rle_overlong_run_error (rb : RunBuilder) (b : Nat) (rest : List Nat)
    (h : 9 ≤ rb.byteCount) :
    rleDecode (.run rb) (b :: rest) = .error "Overly long run" := by
  rw [rleDecode]
  unfold RunBuilder.addByte
  rw [if_pos h, except_bind_error]

/-- Witness for C5 at a concrete decoder configuration. -/
theorem rle_overlong_run_error_witness :
    9 ≤ (9 : Nat) ∧
    rleDecode (.run ⟨5, List.replicate 9 0, 9⟩) [0]
      = .error "Overly long run" :=
  ⟨Nat.le_refl 9, rle_overlong_run_error ⟨5, List.replicate 9 0, 9⟩ 0 [] (Nat.le_refl 9)⟩

/-! ### Claim C6 -/

/-- C6 (confirmed): end-of-source behaviour of the decoder.  A stream
exhausted in state `Single(a)` yields the single final byte `a`
(`Run {a, 1}`); a stream exhausted in a `Run` state with builder `rb` is
accepted without error and yields `2 + v` copies of the run byte, where `v`
is the value accumulated from the low 7 bits of the continuation bytes
received so far, unfilled higher slice positions contributing zero. -/
theorem rle_decoder_eof_behaviour :
    (∀ a : Nat, rleDecode (.single a) [] = .ok [a]) ∧
    (∀ rb : RunBuilder, rleDecode (.run rb) []
      = .ok (List.replicate (2 + valAux rb.slice) rb.byte)) := by
  constructor
  · intro a
    rfl
  · intro rb
    show Except.ok (List.replicate rb.toReps rb.byte) = _
    rw [toReps_eq]

/-! ### Claim C10 -/

/-- C10 (corrected): `Encoder::flush` leaves the buffered-run state
(`byte`, `reps`, `in_run`) unchanged, and for every state with a pending
count between 1 and `2 ^ 63 + 1` two successive flushes write the run's
encoding twice.  (The claim as stated, for every pending count ≥ 1, fails at
counts ≥ `2 ^ 63 + 2`: the first flush overruns its buffer and writes
nothing at all, see the counterexample.) -/
theorem rle_flush_frame_effect (s : EncState) (h1 : 1 ≤ s.reps)
    (h2 : s.reps ≤ 2 ^ 63 + 1) :
    ∃ out, rleFlush s = some (s, out) ∧
      (do
        let p ← rleFlush s
        let q ← rleFlush p.1
        pure (p.2 ++ q.2) : Option (List Nat)) = some (out ++ out) := by
  refine ⟨flushBytes s.byte s.reps, rleFlush_small s h1 h2, ?_⟩
  rw [rleFlush_small s h1 h2, option_bind_some, rleFlush_small s h1 h2,
    option_bind_some]
  rfl

/-- Witness for C10 at a concrete state. -/
theorem rle_flush_frame_effect_witness :
    1 ≤ (3 : Nat) ∧ (3 : Nat) ≤ 2 ^ 63 + 1 ∧
    ∃ out, rleFlush ⟨3, 8, true⟩ = some (⟨3, 8, true⟩, out) ∧
      (do
        let p ← rleFlush ⟨3, 8, true⟩
        let q ← rleFlush p.1
        pure (p.2 ++ q.2) : Option (List Nat)) = some (out ++ out) :=
  ⟨by norm_num, by decide,
    rle_flush_frame_effect ⟨3, 8, true⟩ (by decide) (by decide)⟩

/-- Counterexample to C10 as stated: at a pending count of `2 ^ 63 + 2`
(count ≥ 1) the first flush already fails with an out-of-bounds buffer
write, so flushing twice does not write the encoding twice. -/
theorem rle_flush_frame_effect_fails_large :
    rleFlush ⟨2 ^ 63 + 2, 9, true⟩ = none :=
  rleFlush_big _ (Nat.le_refl _)

/-! ### MTF: the scan finds the symbol and moves it to the front -/

theorem mtfEncodeLoop_spec : ∀ (l : List Nat) (next sym : Nat), sym ∈ l →
    ∃ k, mtfEncodeLoop sym next l = some (k, next :: (l.take k ++ l.drop (k + 1)))
      ∧ l[k]? = some sym ∧ k < l.length := by
  intro l
  induction l with
  | nil =>
    intro next sym h
    simp at h
  | cons c rest ih =>
    intro next sym h
    by_cases hc : c = sym
    · refine ⟨0, ?_, ?_, ?_⟩
      · rw [mtfEncodeLoop, if_pos hc]
        simp
      · simp [hc]
      · simp
    · have hmem : sym ∈ rest := List.mem_of_ne_of_mem (fun h0 => hc h0.symm) h
      obtain ⟨k, hk1, hk2, hk3⟩ := ih c sym hmem
      refine ⟨k + 1, ?_, ?_, ?_⟩
      · rw [mtfEncodeLoop, if_neg hc, hk1, Option.map_some',
          List.take_succ_cons, List.drop_succ_cons]
        simp
      · simpa using hk2
      · simp
        omega
    
theorem mtfEncode_spec (m : List Nat) (sym : Nat) (h : sym ∈ m) :
    ∃ r, mtfEncode m sym = some (r, sym :: (m.take r ++ m.drop (r + 1)))
      ∧ m[r]? = some sym ∧ r < m.length := by
  cases m with
  | nil => simp at h
  | cons next rest =>
    by_cases hn : next = sym
    · refine ⟨0, ?_, by simp [hn], by simp⟩
      rw [mtfEncode, if_pos hn]
      simp [hn]
    · have hmem : sym ∈ rest := List.mem_of_ne_of_mem (fun h0 => hn h0.symm) h
      obtain ⟨k, hk1, hk2, hk3⟩ := mtfEncodeLoop_spec rest next sym hmem
      refine ⟨k + 1, ?_, by simpa using hk2, by simp; omega⟩
      rw [mtfEncode, if_neg hn, hk1, Option.map_some',
        List.take_succ_cons, List.drop_succ_cons]
      simp

theorem mtfDecode_inverse (m : List Nat) (r sym : Nat) (hget : m[r]? = some sym) :
    mtfDecode m r = (sym, sym :: (m.take r ++ m.drop (r + 1))) := by
  unfold mtfDecode
  rw [List.getD_eq_getElem?_getD, hget]
  rfl

theorem mtf_table_perm (m : List Nat) (r sym : Nat) (hget : m[r]? = some sym) :
    (sym :: (m.take r ++ m.drop (r + 1))).Perm m := by
  obtain ⟨hr, hsym⟩ := List.getElem?_eq_some.1 hget
  conv_rhs => rw [← List.take_append_drop r m, List.drop_eq_getElem_cons hr, hsym]
  exact List.perm_middle.symm

theorem mtf_seq_roundtrip : ∀ (x m : List Nat), (∀ b ∈ x, b ∈ m) →
    ∃ rs, mtfEncodeSeq m x = some rs ∧ mtfDecodeSeq m rs = x := by
  intro x
  induction x with
  | nil => exact fun m _ => ⟨[], rfl, rfl⟩
  | cons s t ih =>
    intro m hm
    have hs : s ∈ m := hm s (by simp)
    obtain ⟨r, henc, hget, hr⟩ := mtfEncode_spec m s hs
    have hperm := mtf_table_perm m r s hget
    obtain ⟨rs, hrs1, hrs2⟩ := ih (s :: (m.take r ++ m.drop (r + 1)))
      (fun b hb => hperm.mem_iff.2 (hm b (by simp [hb])))
    refine ⟨r :: rs, ?_, ?_⟩
    · rw [mtfEncodeSeq, henc, option_bind_some]
      show (do
        let rs1 ← mtfEncodeSeq (s :: (m.take r ++ m.drop (r + 1))) t
        pure (r :: rs1) : Option (List Nat)) = _
      rw [hrs1, option_bind_some]
      rfl
    · rw [mtfDecodeSeq]
      show (mtfDecode m r).1 :: mtfDecodeSeq (mtfDecode m r).2 rs = s :: t
      rw [mtfDecode_inverse m r s hget, hrs2]

/-! ### Claim C2 -/

/-- C2 (confirmed): MTF round-trip.  For every byte sequence, decoding (with
`mtf::Decoder`, starting from the alphabetical rank table) the rank sequence
produced by encoding it (with `mtf::Encoder`, starting from the alphabetical
rank table) yields the original byte sequence. -/
theorem mtf_roundtrip (x : List Nat) (hx : ∀ b ∈ x, b < 256) :
    ∃ rs, mtfEncodeSeq mtfAlphabet x = some rs ∧ mtfDecodeSeq mtfAlphabet rs = x :=
  mtf_seq_roundtrip x mtfAlphabet
    (fun b hb => by simpa [mtfAlphabet] using hx b hb)

/-- Witness for C2 at a concrete input. -/
theorem mtf_roundtrip_witness :
    (∀ b ∈ [97, 98, 114, 97, 99, 97], b < 256) ∧
    ∃ rs, mtfEncodeSeq mtfAlphabet [97, 98, 114, 97, 99, 97] = some rs ∧
      mtfDecodeSeq mtfAlphabet rs = [97, 98, 114, 97, 99, 97] :=
  ⟨by decide, mtf_roundtrip [97, 98, 114, 97, 99, 97] (by decide)⟩

/-! ### Claim C7 -/

/-- C7 (confirmed): for every rank table that is a permutation of the 256
byte values and every input byte, `MTF::encode` finds the byte (its internal
range assertion, modelled as the `none` result, never fails) and the scan
stops within the table, at a rank below 256. -/
theorem mtf_encode_total (m : List Nat) (sym : Nat)
    (hperm : m.Perm (List.range 256)) (hsym : sym < 256) :
    ∃ r m2, mtfEncode m sym = some (r, m2) ∧ r < 256 := by
  have hmem : sym ∈ m := hperm.mem_iff.2 (List.mem_range.2 hsym)
  obtain ⟨r, henc, _, hr⟩ := mtfEncode_spec m sym hmem
  have hlen : m.length = 256 := by rw [hperm.length_eq, List.length_range]
  exact ⟨r, _, henc, by omega⟩

/-- Witness for C7 at a concrete table and symbol. -/
theorem mtf_encode_total_witness :
    mtfAlphabet.Perm (List.range 256) ∧ (3 : Nat) < 256 ∧
    ∃ r m2, mtfEncode mtfAlphabet 3 = some (r, m2) ∧ r < 256 :=
  ⟨List.Perm.refl _, by norm_num,
    mtf_encode_total mtfAlphabet 3 (List.Perm.refl _) (by norm_num)⟩

/-! ### Claim C9 -/

/-- C9 (confirmed): the CRC-32 table has exactly 256 entries, a fresh
accumulator is seeded with `0xffffffff`, and the reported checksum after
feeding the empty byte string is `0x00000000` (the state XOR
`0xffffffff`). -/
theorem crc_new_empty_checksum :
    crcTable.length = 256 ∧ State32.new.crc = 0xffffffff ∧
    (State32.new.feed []).crc32 = 0 := by
  refine ⟨?_, rfl, ?_⟩
  · rw [crcTable, List.length_map, List.length_range]
  · show (0xffffffff : Nat) ^^^ 0xffffffff = 0
    simp

/-! ### Claim C8 -/

theorem getD_take_ten (s : List Nat) (i : Nat) (hi : i < 10) :
    (s.take 10).getD i 0 = s.getD i 0 := by
  rw [List.getD_eq_getElem?_getD, List.getD_eq_getElem?_getD,
    List.getElem?_take, if_pos hi]

/-- C8 (confirmed): `Decoder::member` rejects malformed fixed headers with a
fatal `InvalidInput` error — never a member and never the clean end-of-stream
signal.  First part: any stream with at least its first two bytes present
that does not start with `0x1f 0x8b` (a too-short stream is the
`InvalidInput` "unexpected end of file", a long enough one the `InvalidInput`
"not a gzip stream").  Second part: any stream with a full 10-byte fixed
header whose flag byte has one of the reserved bits 5-7 set (whichever of
the magic, method, or reserved-bit checks fires first, each is
`InvalidInput`). -/
theorem gzip_member_rejects_bad_header :
    (∀ s : List Nat, 2 ≤ s.length → s.take 2 ≠ [0x1f, 0x8b] →
      ∃ d, gzipMember s = .errInvalid d) ∧
    (∀ s : List Nat, 10 ≤ s.length → s.getD 3 0 &&& (32 + 64 + 128) ≠ 0 →
      ∃ d, gzipMember s = .errInvalid d) := by
  constructor
  · intro s h2 hmagic
    match s, h2 with
    | a :: b :: t, _ =>
      have hd : a ≠ 0x1f ∨ b ≠ 0x8b := by
        by_contra hcon
        push_neg at hcon
        exact hmagic (by simp [hcon.1, hcon.2])
      unfold gzipMember
      rw [if_neg (by simp)]
      by_cases h10 : (a :: b :: t).length < 10
      · rw [if_pos h10]
        exact ⟨_, rfl⟩
      · rw [if_neg h10]
        dsimp only
        have hc : (((a :: b :: t).take 10).getD 0 0 != 0x1f
            || ((a :: b :: t).take 10).getD 1 0 != 0x8b) = true := by
          rw [getD_take_ten _ 0 (by omega), getD_take_ten _ 1 (by omega)]
          rcases hd with h | h <;> simp [h]
        rw [if_pos hc]
        exact ⟨_, rfl⟩
  · intro s h10 hflg
    unfold gzipMember
    rw [if_neg (by omega), if_neg (by omega)]
    dsimp only
    cases hc1 : ((s.take 10).getD 0 0 != 0x1f || (s.take 10).getD 1 0 != 0x8b) with
    | true => exact ⟨_, rfl⟩
    | false =>
      cases hc2 : ((s.take 10).getD 2 0 != 8) with
      | true => exact ⟨_, rfl⟩
      | false =>
        have hc3 : ((s.take 10).getD 3 0 &&& (32 + 64 + 128) != 0) = true := by
          rw [getD_take_ten _ 3 (by omega)]
          simpa using hflg
        rw [hc3]
        exact ⟨_, rfl⟩

/-- Witness for C8 at concrete streams. -/
theorem gzip_member_rejects_bad_header_witness :
    (2 ≤ ([0, 0] : List Nat).length ∧ ([0, 0] : List Nat).take 2 ≠ [0x1f, 0x8b] ∧
      ∃ d, gzipMember [0, 0] = .errInvalid d) ∧
    (10 ≤ ([0x1f, 0x8b, 8, 224, 0, 0, 0, 0, 0, 0] : List Nat).length ∧
      ([0x1f, 0x8b, 8, 224, 0, 0, 0, 0, 0, 0] : List Nat).getD 3 0
        &&& (32 + 64 + 128) ≠ 0 ∧
      ∃ d, gzipMember [0x1f, 0x8b, 8, 224, 0, 0, 0, 0, 0, 0] = .errInvalid d) :=
  ⟨⟨by norm_num, by decide,
      gzip_member_rejects_bad_header.1 [0, 0] (by norm_num) (by decide)⟩,
    ⟨by norm_num, by decide,
      gzip_member_rejects_bad_header.2 [0x1f, 0x8b, 8, 224, 0, 0, 0, 0, 0, 0]
        (by norm_num) (by decide)⟩⟩
